import Mathlib

/-!
Verification of the merge-and-retention pipeline of `fetch_columns.py`.

The embedding models the script's core: converting fetched feed entries to
RSS item elements, loading the previously persisted feed, deduplicating by
guid with fresh-first priority, sorting by publication date descending and
truncating to `max_items`.

External collaborators are modelled at their interface boundary:
`dateutil.parser.parse` is an arbitrary partial parse function
(a parameter `dtparse : String → Option D`, `none` standing for a raised
exception), `email.utils.format_datetime` an arbitrary formatting function
`fmt`, and `datetime.now` the explicit processing instant `now`.  Instants
are integers where only their ordering matters; for the claim about raising
during the sort they are refined to `PyDT`, which also records whether the
parsed datetime is timezone-aware, because Python ordering comparisons
between naive and aware datetimes raise `TypeError`.
-/

namespace FetchColumns

/-- `leads_chars n h` is true when the character list `n` is an initial
segment of `h` (helper for the Python substring test). -/
def leads_chars : List Char → List Char → Bool
  | [], _ => true
  | _ :: _, [] => false
  | a :: as, b :: bs => a == b && leads_chars as bs

/-- `has_sub_chars n h`: the character list `n` occurs contiguously in `h`. -/
def has_sub_chars (needle : List Char) : List Char → Bool
  | [] => leads_chars needle []
  | b :: bs => leads_chars needle (b :: bs) || has_sub_chars needle bs

/-- Python's `needle in hay` on strings: contiguous substring test. -/
def str_contains (hay needle : String) : Bool :=
  has_sub_chars needle.data hay.data

/-- Python truthiness on an optional string: `none` and the empty string are
falsy.  `truthy o` is `some s` exactly when `o` holds a non-empty string. -/
def truthy : Option String → Option String
  | some s => if s = "" then none else some s
  | none => none

/-- Python `x or ''` applied to an optional string. -/
def or_empty (o : Option String) : String :=
  match truthy o with
  | some s => s
  | none => ""

/-- A feed entry as exposed by the feed parser (`feedparser`): every field the
script reads.  `content` is the list of content block values
(`entry.content[i].value`); an absent `content` key and an empty list behave
identically in the script, so both are `[]`. -/
structure Entry where
  link : Option String
  id : Option String
  title : Option String
  content : List String
  summary : Option String
  published : Option String
  pubDate : Option String
  updated : Option String
deriving DecidableEq

/-- The `<item>` element built by `entry_to_item_element` (source lines
57-90): its five child texts. -/
structure ItemElement where
  title : String
  link : String
  guid : String
  description : String
  pubDate : String
deriving DecidableEq

/-- An `<item>` node of a previously persisted file, as read back by
`load_existing_items`: the texts `findtext` can extract.  `none` is an
absent child element; `some ""` is a present child with empty text. -/
structure XmlItem where
  linkText : Option String
  guidText : Option String
  pubDateText : Option String
deriving DecidableEq

/-- The `element` slot of an item dict: either an element freshly built by
`entry_to_item_element` or the raw node kept by `load_existing_items`. -/
inductive Elem where
  | built : ItemElement → Elem
  | stored : XmlItem → Elem
deriving DecidableEq

/-- The dicts the script threads through the merge
(`'element'/'link'/'pubDate'/'guid'` keys, source lines 52 and 161). -/
structure RawItem where
  element : Elem
  link : String
  pubDate : Option String
  guid : String
deriving DecidableEq

/-- `entry_to_item_element` (source lines 57-90): builds the serialized item
and returns it with the chosen pubDate string.  The date is chosen by
`entry.get('published') or entry.get('pubDate') or entry.get('updated')`,
then parsed, with the processing instant as fallback on absence or parse
failure. -/
def entry_to_item_element (dtparse : String → Option Int) (fmt : Int → String)
    (now : Int) (e : Entry) : ItemElement × String :=
  let desc : String :=
    match e.content with
    | v :: _ => v
    | [] => e.summary.getD ""
  let pub : Option String :=
    match truthy e.published with
    | some p => some p
    | none =>
      match truthy e.pubDate with
      | some p => some p
      | none => truthy e.updated
  let pd : String :=
    match pub with
    | some p =>
      match dtparse p with
      | some d => fmt d
      | none => fmt now
    | none => fmt now
  ({ title := e.title.getD ""
     link := e.link.getD ""
     guid := match e.link with
             | some l => l
             | none => e.id.getD ""
     description := desc
     pubDate := pd }, pd)

/-- The link filter (source line 154): keep entries whose link contains
`/columns/`. -/
def filter_entries (entries : List Entry) : List Entry :=
  entries.filter fun e => str_contains (e.link.getD "") "/columns/"

/-- Conversion of the filtered entries into item dicts (source lines
157-163): the dict's `guid` key is `e.get('link','')`. -/
def new_items (dtparse : String → Option Int) (fmt : Int → String) (now : Int)
    (entries : List Entry) : List RawItem :=
  (filter_entries entries).map fun e =>
    let r := entry_to_item_element dtparse fmt now e
    { element := Elem.built r.1
      link := e.link.getD ""
      pubDate := some r.2
      guid := e.link.getD "" }

/-- One persisted item node turned into the loader's dict (source lines
48-52): `link = findtext('link') or ''`, `guid = findtext('guid') or link`,
`pubdate = findtext('pubDate')`, and the raw node kept as the element. -/
def load_item (it : XmlItem) : RawItem :=
  let link := or_empty it.linkText
  { element := Elem.stored it
    link := link
    pubDate := it.pubDateText
    guid := match truthy it.guidText with
            | some s => s
            | none => link }

/-- The state of the output path as `load_existing_items` observes it:
absent, unparseable (`ET.parse` raises), parsed without a `channel` child, or
parsed with a channel holding item nodes. -/
inductive XmlFile where
  | missing : XmlFile
  | unreadable : XmlFile
  | noChannel : XmlFile
  | channel : List XmlItem → XmlFile

/-- `load_existing_items` (source lines 37-55). -/
def load_existing_items : XmlFile → List RawItem
  | XmlFile.missing => []
  | XmlFile.unreadable => []
  | XmlFile.noChannel => []
  | XmlFile.channel its => its.map load_item

/-- One step of the dict build for a fresh item (source lines 171-172):
`keyed[it['guid']] = it` on an insertion-ordered dict — an existing key keeps
its position but takes the new value, a new key is appended. -/
def insert_fresh (m : List RawItem) (it : RawItem) : List RawItem :=
  if m.any fun x => x.guid = it.guid then
    m.map fun x => if x.guid = it.guid then it else x
  else
    m ++ [it]

/-- One step of the dict build for a persisted item (source lines 174-177):
inserted only if its guid is not already a key. -/
def insert_existing (m : List RawItem) (ex : RawItem) : List RawItem :=
  if m.any fun x => x.guid = ex.guid then m else m ++ [ex]

/-- `list(keyed.values())` (source lines 169-177 and 186): the dict seeded
with the fresh items, then fed the persisted items, read in insertion
order. -/
def keyed_values (ns es : List RawItem) : List RawItem :=
  es.foldl insert_existing (ns.foldl insert_fresh [])

/-- `parse_pubdate_string` (source lines 180-184): parse, falling back to the
processing instant when the parser raises.  Polymorphic in the instant
domain `D`. -/
def parse_pubdate_string {D : Type} (dtparse : String → Option D) (now : D)
    (s : String) : D :=
  match dtparse s with
  | some d => d
  | none => now

/-- The sort key of an item (source line 187):
`parse_pubdate_string(x.get('pubDate') or '')`. -/
def pubdate_key (dtparse : String → Option Int) (now : Int) (x : RawItem) : Int :=
  parse_pubdate_string dtparse now (or_empty x.pubDate)

/-- The comparison realised by `sorted(..., key=..., reverse=True)`: `a` may
stay before `b` when `b`'s key is at most `a`'s. -/
def item_le (dtparse : String → Option Int) (now : Int) (a b : RawItem) : Bool :=
  decide (pubdate_key dtparse now b ≤ pubdate_key dtparse now a)

/-- The sort of source line 187: Python's `sorted` is a stable sort, modelled
by `List.mergeSort` with the descending-key comparison. -/
def sort_items (dtparse : String → Option Int) (now : Int)
    (l : List RawItem) : List RawItem :=
  l.mergeSort (item_le dtparse now)

/-- The merge-sort-truncate pipeline (source lines 157-189): convert and
filter the fetched entries, merge with the persisted items, sort by pubDate
descending and keep the first `maxItems`. -/
def run_pipeline (dtparse : String → Option Int) (fmt : Int → String)
    (now : Int) (entries : List Entry) (existing : List RawItem)
    (maxItems : Nat) : List RawItem :=
  (sort_items dtparse now
      (keyed_values (new_items dtparse fmt now entries) existing)).take maxItems

/-- Some item of `m` has guid `g`. -/
def HasGuid (m : List RawItem) (g : String) : Prop :=
  ∃ x ∈ m, x.guid = g

/-- The guids of `m` are pairwise distinct (the dict-key property). -/
def GNodup (m : List RawItem) : Prop :=
  m.Pairwise fun a b => a.guid ≠ b.guid

theorem any_guid_iff (m : List RawItem) (g : String) :
    (m.any fun x => x.guid = g) = true ↔ HasGuid m g := by
  simp [List.any_eq_true, HasGuid]

theorem insert_fresh_over {m : List RawItem} {it : RawItem} (h : HasGuid m it.guid) :
    insert_fresh m it = m.map fun x => if x.guid = it.guid then it else x := by
  unfold insert_fresh
  rw [if_pos ((any_guid_iff m it.guid).2 h)]

theorem insert_fresh_app {m : List RawItem} {it : RawItem} (h : ¬ HasGuid m it.guid) :
    insert_fresh m it = m ++ [it] := by
  unfold insert_fresh
  rw [if_neg fun hc => h ((any_guid_iff m it.guid).1 hc)]

theorem insert_existing_skip {m : List RawItem} {ex : RawItem} (h : HasGuid m ex.guid) :
    insert_existing m ex = m := by
  unfold insert_existing
  rw [if_pos ((any_guid_iff m ex.guid).2 h)]

theorem insert_existing_app {m : List RawItem} {ex : RawItem} (h : ¬ HasGuid m ex.guid) :
    insert_existing m ex = m ++ [ex] := by
  unfold insert_existing
  rw [if_neg fun hc => h ((any_guid_iff m ex.guid).1 hc)]

theorem mem_insert_fresh {m : List RawItem} {it x : RawItem}
    (h : x ∈ insert_fresh m it) : x ∈ m ∨ x = it := by
  by_cases hg : HasGuid m it.guid
  · rw [insert_fresh_over hg] at h
    rcases List.mem_map.1 h with ⟨y, hy, hxy⟩
    by_cases hyg : y.guid = it.guid
    · rw [if_pos hyg] at hxy
      exact Or.inr hxy.symm
    · rw [if_neg hyg] at hxy
      exact Or.inl (hxy ▸ hy)
  · rw [insert_fresh_app hg] at h
    rcases List.mem_append.1 h with h' | h'
    · exact Or.inl h'
    · exact Or.inr (List.mem_singleton.1 h')

theorem hasGuid_insert_fresh {m : List RawItem} {it : RawItem} {g : String} :
    HasGuid (insert_fresh m it) g ↔ HasGuid m g ∨ it.guid = g := by
  by_cases hg : HasGuid m it.guid
  · rw [insert_fresh_over hg]
    constructor
    · rintro ⟨x, hx, rfl⟩
      rcases List.mem_map.1 hx with ⟨y, hy, hxy⟩
      by_cases hyg : y.guid = it.guid
      · rw [if_pos hyg] at hxy
        exact Or.inr (hxy ▸ rfl)
      · rw [if_neg hyg] at hxy
        exact Or.inl ⟨y, hy, hxy ▸ rfl⟩
    · rcases hg with ⟨w, hw, hwg⟩
      rintro (⟨x, hx, rfl⟩ | hig)
      · by_cases hxg : x.guid = it.guid
        · refine ⟨it, List.mem_map.2 ⟨w, hw, ?_⟩, hxg.symm⟩
          rw [if_pos hwg]
        · refine ⟨x, List.mem_map.2 ⟨x, hx, ?_⟩, rfl⟩
          rw [if_neg hxg]
      · refine ⟨it, List.mem_map.2 ⟨w, hw, ?_⟩, hig⟩
        rw [if_pos hwg]
  · rw [insert_fresh_app hg]
    constructor
    · rintro ⟨x, hx, rfl⟩
      rcases List.mem_append.1 hx with h' | h'
      · exact Or.inl ⟨x, h', rfl⟩
      · exact Or.inr (List.mem_singleton.1 h' ▸ rfl)
    · rintro (⟨x, hx, rfl⟩ | hig)
      · exact ⟨x, List.mem_append_left _ hx, rfl⟩
      · exact ⟨it, List.mem_append_right _ (List.mem_singleton.2 rfl), hig⟩

theorem eq_of_mem_insert_fresh_guid {m : List RawItem} {it x : RawItem}
    (h : x ∈ insert_fresh m it) (hg : x.guid = it.guid) : x = it := by
  by_cases hm : HasGuid m it.guid
  · rw [insert_fresh_over hm] at h
    rcases List.mem_map.1 h with ⟨y, hy, hxy⟩
    by_cases hyg : y.guid = it.guid
    · rw [if_pos hyg] at hxy
      exact hxy.symm
    · rw [if_neg hyg] at hxy
      subst hxy
      exact absurd hg hyg
  · rw [insert_fresh_app hm] at h
    rcases List.mem_append.1 h with h' | h'
    · exact absurd ⟨x, h', hg⟩ hm
    · exact List.mem_singleton.1 h'

theorem gnodup_insert_fresh {m : List RawItem} {it : RawItem}
    (h : GNodup m) : GNodup (insert_fresh m it) := by
  by_cases hg : HasGuid m it.guid
  · rw [insert_fresh_over hg]
    refine List.Pairwise.map _ ?_ h
    intro a b hab
    by_cases ha : a.guid = it.guid
    · by_cases hb : b.guid = it.guid
      · exact absurd (ha.trans hb.symm) hab
      · rw [if_pos ha, if_neg hb]
        intro hc
        exact hab (ha.trans hc)
    · by_cases hb : b.guid = it.guid
      · rw [if_neg ha, if_pos hb]
        intro hc
        exact hab (hc.trans hb.symm)
      · rw [if_neg ha, if_neg hb]
        exact hab
  · rw [insert_fresh_app hg, GNodup, List.pairwise_append]
    refine ⟨h, List.pairwise_singleton _ _, ?_⟩
    intro a ha b hb
    rw [List.mem_singleton.1 hb]
    intro hgg
    exact hg ⟨a, ha, hgg⟩

theorem fold_fresh_gnodup (ns : List RawItem) :
    ∀ K : List RawItem, GNodup K → GNodup (ns.foldl insert_fresh K) := by
  induction ns with
  | nil => intro K h; exact h
  | cons n rest ih => intro K h; exact ih _ (gnodup_insert_fresh h)

theorem fold_fresh_mem (ns : List RawItem) :
    ∀ K x, x ∈ ns.foldl insert_fresh K → x ∈ K ∨ x ∈ ns := by
  induction ns with
  | nil => intro K x h; exact Or.inl h
  | cons n rest ih =>
    intro K x h
    rcases ih _ x h with h' | h'
    · rcases mem_insert_fresh h' with h'' | h''
      · exact Or.inl h''
      · exact Or.inr (h'' ▸ List.mem_cons_self _ _)
    · exact Or.inr (List.mem_cons_of_mem _ h')

theorem fold_fresh_hasGuid (ns : List RawItem) :
    ∀ K g, HasGuid (ns.foldl insert_fresh K) g ↔ HasGuid K g ∨ HasGuid ns g := by
  induction ns with
  | nil =>
    intro K g
    simp only [List.foldl_nil]
    constructor
    · exact Or.inl
    · rintro (h | ⟨x, hx, _⟩)
      · exact h
      · cases hx
  | cons n rest ih =>
    intro K g
    rw [List.foldl_cons, ih, hasGuid_insert_fresh]
    constructor
    · rintro ((h | h) | h)
      · exact Or.inl h
      · exact Or.inr ⟨n, List.mem_cons_self _ _, h⟩
      · rcases h with ⟨x, hx, hg⟩
        exact Or.inr ⟨x, List.mem_cons_of_mem _ hx, hg⟩
    · rintro (h | ⟨x, hx, hg⟩)
      · exact Or.inl (Or.inl h)
      · rcases List.mem_cons.1 hx with rfl | hx'
        · exact Or.inl (Or.inr hg)
        · exact Or.inr ⟨x, hx', hg⟩

theorem fold_fresh_guid_stable (ns : List RawItem) :
    ∀ K x g, x ∈ ns.foldl insert_fresh K → x.guid = g → ¬ HasGuid ns g → x ∈ K := by
  induction ns with
  | nil => intro K x g h _ _; exact h
  | cons n rest ih =>
    intro K x g h hg hng
    have hx' : x ∈ insert_fresh K n := by
      refine ih _ x g h hg ?_
      intro ⟨y, hy, hyg⟩
      exact hng ⟨y, List.mem_cons_of_mem _ hy, hyg⟩
    rcases mem_insert_fresh hx' with h' | rfl
    · exact h'
    · exact absurd ⟨x, List.mem_cons_self _ _, hg⟩ hng

theorem fold_fresh_last (ns : List RawItem) :
    ∀ K g, HasGuid ns g →
      ∃ f ∈ ns, f.guid = g ∧ ∀ x ∈ ns.foldl insert_fresh K, x.guid = g → x = f := by
  induction ns with
  | nil => rintro K g ⟨x, hx, _⟩; cases hx
  | cons n rest ih =>
    intro K g hg
    by_cases hrest : HasGuid rest g
    · rcases ih (insert_fresh K n) g hrest with ⟨f, hf, hfg, hall⟩
      refine ⟨f, List.mem_cons_of_mem _ hf, hfg, ?_⟩
      intro x hx hxg
      rw [List.foldl_cons] at hx
      exact hall x hx hxg
    · have hn : n.guid = g := by
        rcases hg with ⟨x, hx, hxg⟩
        rcases List.mem_cons.1 hx with rfl | hx'
        · exact hxg
        · exact absurd ⟨x, hx', hxg⟩ hrest
      refine ⟨n, List.mem_cons_self _ _, hn, ?_⟩
      intro x hx hxg
      rw [List.foldl_cons] at hx
      have hx' : x ∈ insert_fresh K n :=
        fold_fresh_guid_stable rest _ x g hx hxg hrest
      exact eq_of_mem_insert_fresh_guid hx' (by rw [hxg, hn])

theorem fold_existing_decomp (es : List RawItem) :
    ∀ K : List RawItem, ∃ tail,
      es.foldl insert_existing K = K ++ tail ∧
      ∀ x ∈ tail, x ∈ es ∧ ¬ HasGuid K x.guid := by
  induction es with
  | nil => intro K; exact ⟨[], by simp⟩
  | cons e rest ih =>
    intro K
    rw [List.foldl_cons]
    by_cases hg : HasGuid K e.guid
    · rw [insert_existing_skip hg]
      rcases ih K with ⟨tail, h1, h2⟩
      exact ⟨tail, h1, fun x hx =>
        ⟨List.mem_cons_of_mem _ (h2 x hx).1, (h2 x hx).2⟩⟩
    · rw [insert_existing_app hg]
      rcases ih (K ++ [e]) with ⟨tail, h1, h2⟩
      refine ⟨e :: tail, by simpa using h1, ?_⟩
      intro x hx
      rcases List.mem_cons.1 hx with rfl | hx'
      · exact ⟨List.mem_cons_self _ _, hg⟩
      · refine ⟨List.mem_cons_of_mem _ (h2 x hx').1, fun hgx => (h2 x hx').2 ?_⟩
        rcases hgx with ⟨y, hy, hyg⟩
        exact ⟨y, List.mem_append_left _ hy, hyg⟩

theorem gnodup_insert_existing {m : List RawItem} {ex : RawItem}
    (h : GNodup m) : GNodup (insert_existing m ex) := by
  by_cases hg : HasGuid m ex.guid
  · rw [insert_existing_skip hg]
    exact h
  · rw [insert_existing_app hg, GNodup, List.pairwise_append]
    refine ⟨h, List.pairwise_singleton _ _, ?_⟩
    intro a ha b hb
    rw [List.mem_singleton.1 hb]
    intro hgg
    exact hg ⟨a, ha, hgg⟩

theorem fold_existing_gnodup (es : List RawItem) :
    ∀ K : List RawItem, GNodup K → GNodup (es.foldl insert_existing K) := by
  induction es with
  | nil => intro K h; exact h
  | cons e rest ih => intro K h; exact ih _ (gnodup_insert_existing h)

theorem mem_insert_existing {m : List RawItem} {ex x : RawItem}
    (h : x ∈ insert_existing m ex) : x ∈ m ∨ x = ex := by
  unfold insert_existing at h
  split at h
  · exact Or.inl h
  · rcases List.mem_append.1 h with h' | h'
    · exact Or.inl h'
    · exact Or.inr (List.mem_singleton.1 h')

theorem fold_existing_mem (es : List RawItem) :
    ∀ K x, x ∈ es.foldl insert_existing K → x ∈ K ∨ x ∈ es := by
  induction es with
  | nil => intro K x h; exact Or.inl h
  | cons e rest ih =>
    intro K x h
    rcases ih _ x h with h' | h'
    · rcases mem_insert_existing h' with h'' | h''
      · exact Or.inl h''
      · exact Or.inr (h'' ▸ List.mem_cons_self _ _)
    · exact Or.inr (List.mem_cons_of_mem _ h')

theorem keyed_values_gnodup (ns es : List RawItem) : GNodup (keyed_values ns es) :=
  fold_existing_gnodup es _ (fold_fresh_gnodup ns [] List.Pairwise.nil)

theorem mem_keyed_values {ns es : List RawItem} {x : RawItem}
    (h : x ∈ keyed_values ns es) : x ∈ ns ∨ x ∈ es := by
  rcases fold_existing_mem es _ x h with h' | h'
  · rcases fold_fresh_mem ns _ x h' with h'' | h''
    · cases h''
    · exact Or.inl h''
  · exact Or.inr h'

/-- A persisted-style concrete item used to instantiate theorems. -/
def wStored : RawItem :=
  { element := Elem.stored ⟨none, none, none⟩, link := "", pubDate := none, guid := "g" }

/-- A fresh-style concrete item with the same guid as `wStored`. -/
def wBuilt : RawItem :=
  { element := Elem.built ⟨"t", "l", "g", "d", "p"⟩, link := "l", pubDate := some "p",
    guid := "g" }

/-- C1: when some freshly fetched item carries identifier `g`, the merged
dict holds, at `g`, one of the freshly fetched items with that identifier
(the last one, hence the unique one when only one fresh item has `g`), and
every item of the merged output carrying `g` is that fresh item — a
persisted item never overrides it. -/
theorem freshness_precedence (ns es : List RawItem) (g : String)
    (h : HasGuid ns g) :
    ∃ f ∈ ns, f.guid = g ∧ ∀ x ∈ keyed_values ns es, x.guid = g → x = f := by
  rcases fold_fresh_last ns [] g h with ⟨f, hf, hfg, hall⟩
  refine ⟨f, hf, hfg, ?_⟩
  intro x hx hxg
  unfold keyed_values at hx
  rcases fold_existing_decomp es (ns.foldl insert_fresh []) with ⟨tail, hdec, htail⟩
  rw [hdec] at hx
  rcases List.mem_append.1 hx with hx' | hx'
  · exact hall x hx' hxg
  · exfalso
    apply (htail x hx').2
    rw [hxg]
    exact (fold_fresh_hasGuid ns [] g).2 (Or.inr h)

theorem freshness_precedence_witness :
    ∃ f ∈ [wBuilt], f.guid = "g" ∧
      ∀ x ∈ keyed_values [wBuilt] [wStored], x.guid = "g" → x = f :=
  freshness_precedence [wBuilt] [wStored] "g"
    ⟨wBuilt, List.mem_singleton.2 rfl, rfl⟩

/-- C2: the final item sequence produced by the merge-sort-truncate step has
length at most `maxItems`, for every fresh batch, persisted list and bound. -/
theorem retention_bound (dtparse : String → Option Int) (fmt : Int → String)
    (now : Int) (entries : List Entry) (existing : List RawItem) (maxItems : Nat) :
    (run_pipeline dtparse fmt now entries existing maxItems).length ≤ maxItems := by
  unfold run_pipeline
  rw [List.length_take]
  exact Nat.min_le_left _ _

/-- C3: no two items of the final output share a guid. -/
theorem identifier_uniqueness (dtparse : String → Option Int) (fmt : Int → String)
    (now : Int) (entries : List Entry) (existing : List RawItem) (maxItems : Nat) :
    (run_pipeline dtparse fmt now entries existing maxItems).Pairwise
      fun a b => a.guid ≠ b.guid := by
  have h1 : GNodup (keyed_values (new_items dtparse fmt now entries) existing) :=
    keyed_values_gnodup _ _
  have h2 : GNodup (sort_items dtparse now
      (keyed_values (new_items dtparse fmt now entries) existing)) :=
    (List.Perm.pairwise_iff (fun h => Ne.symm h)
      (List.mergeSort_perm _ _)).2 h1
  exact List.Pairwise.sublist (List.take_sublist _ _) h2

/-- C4: every item of the final output either was already persisted or stems
from a fetched entry whose link contains the substring `/columns/` (and the
item's link is that entry's link). -/
theorem filter_correctness (dtparse : String → Option Int) (fmt : Int → String)
    (now : Int) (entries : List Entry) (existing : List RawItem) (maxItems : Nat) :
    ∀ x ∈ run_pipeline dtparse fmt now entries existing maxItems,
      x ∈ existing ∨ str_contains x.link "/columns/" = true := by
  intro x hx
  unfold run_pipeline sort_items at hx
  have hx1 : x ∈ keyed_values (new_items dtparse fmt now entries) existing :=
    List.mem_mergeSort.1 (List.mem_of_mem_take hx)
  rcases mem_keyed_values hx1 with h | h
  · right
    unfold new_items at h
    rcases List.mem_map.1 h with ⟨e, he, rfl⟩
    have hf := (List.mem_filter.1 he).2
    simpa using hf
  · exact Or.inl h

theorem filter_correctness_witness :
    wStored ∈ [wStored] ∨ str_contains wStored.link "/columns/" = true := by
  refine filter_correctness (fun _ => none) (fun _ => "") 0 [] [wStored] 5 wStored ?_
  simp [run_pipeline, sort_items, keyed_values, new_items, filter_entries,
    insert_existing, List.mergeSort_singleton]

theorem pair_sublist_of_indices {α : Type} {l : List α} {i j : Nat}
    (hi : i < l.length) (hj : j < l.length) (hij : i < j) : List.Sublist [l[i], l[j]] l := by
  have h := @List.map_getElem_sublist _ l [⟨i, hi⟩, ⟨j, hj⟩]
    (List.pairwise_pair.2 hij)
  simpa using h

theorem indices_of_pair_sublist {α : Type} {a b : α} {l : List α}
    (h : List.Sublist [a, b] l) :
    ∃ i j, ∃ (hi : i < l.length) (hj : j < l.length),
      i < j ∧ l[i] = a ∧ l[j] = b := by
  rcases List.sublist_eq_map_getElem h with ⟨is, heq, hpw⟩
  match is, heq, hpw with
  | [i1, i2], heq, hpw =>
    simp only [List.map_cons, List.map_nil, List.cons.injEq, and_true] at heq
    refine ⟨i1.1, i2.1, i1.2, i2.2, ?_, heq.1.symm, heq.2.symm⟩
    have hlt : i1 < i2 := List.pairwise_pair.1 hpw
    exact hlt

theorem pair_sublist_asymm {α : Type} {l : List α} (hnd : l.Nodup) {a b : α}
    (h1 : List.Sublist [a, b] l) (h2 : List.Sublist [b, a] l) : False := by
  rcases indices_of_pair_sublist h1 with ⟨i, j, hi, hj, hij, ha, hb⟩
  rcases indices_of_pair_sublist h2 with ⟨i', j', hi', hj', hij', hb', ha'⟩
  have e1 : i = j' := (List.Nodup.getElem_inj_iff hnd).1 (ha.trans ha'.symm)
  have e2 : j = i' := (List.Nodup.getElem_inj_iff hnd).1 (hb.trans hb'.symm)
  omega

theorem pair_sublist_of_mems {α : Type} {a b : α} {l₁ l₂ : List α}
    (ha : a ∈ l₁) (hb : b ∈ l₂) : List.Sublist [a, b] (l₁ ++ l₂) :=
  List.Sublist.append (List.singleton_sublist.2 ha) (List.singleton_sublist.2 hb)

theorem pair_sublist_append {α : Type} {a b : α} {l₁ l₂ : List α}
    (h : List.Sublist [a, b] (l₁ ++ l₂)) :
    List.Sublist [a, b] l₁ ∨ List.Sublist [a, b] l₂ ∨ (a ∈ l₁ ∧ b ∈ l₂) := by
  induction l₁ with
  | nil => exact Or.inr (Or.inl (by simpa using h))
  | cons c l₁' ih =>
    rw [List.cons_append] at h
    cases h with
    | cons _ h' =>
      rcases ih h' with h'' | h'' | ⟨ha, hb⟩
      · exact Or.inl (List.Sublist.cons _ h'')
      · exact Or.inr (Or.inl h'')
      · exact Or.inr (Or.inr ⟨List.mem_cons_of_mem _ ha, hb⟩)
    | cons₂ _ h' =>
      have hb : b ∈ l₁' ++ l₂ := List.singleton_sublist.1 h'
      rcases List.mem_append.1 hb with hb' | hb'
      · exact Or.inl (List.Sublist.cons₂ _ (List.singleton_sublist.2 hb'))
      · exact Or.inr (Or.inr ⟨List.mem_cons_self _ _, hb'⟩)

theorem uniq_of_perm_pairwise {α : Type} {r : α → α → Prop} :
    ∀ {l₁ l₂ : List α}, List.Perm l₁ l₂ → l₁.Pairwise r → l₂.Pairwise r →
      (∀ x ∈ l₁, ∀ y ∈ l₁, r x y → r y x → x = y) → l₁ = l₂
  | [], _, hp, _, _, _ => hp.nil_eq
  | a :: t, [], hp, _, _, _ =>
    absurd (hp.subset (List.mem_cons_self a t)) (by simp)
  | a :: t, b :: u, hp, h1, h2, anti => by
    by_cases hab : a = b
    · subst hab
      have ht : List.Perm t u := hp.cons_inv
      have := uniq_of_perm_pairwise ht h1.of_cons h2.of_cons
        (fun x hx y hy => anti x (List.mem_cons_of_mem _ hx) y (List.mem_cons_of_mem _ hy))
      rw [this]
    · exfalso
      have ha2 : a ∈ b :: u := hp.subset (List.mem_cons_self a t)
      have hau : a ∈ u := by
        rcases List.mem_cons.1 ha2 with h | h
        · exact absurd h hab
        · exact h
      have hb1 : b ∈ a :: t := hp.symm.subset (List.mem_cons_self b u)
      have hbt : b ∈ t := by
        rcases List.mem_cons.1 hb1 with h | h
        · exact absurd h.symm hab
        · exact h
      have hrab : r a b := List.rel_of_pairwise_cons h1 hbt
      have hrba : r b a := List.rel_of_pairwise_cons h2 hau
      exact hab (anti a (List.mem_cons_self a t) b (List.mem_cons_of_mem _ hbt) hrab hrba)

/-- Core stability argument: if `M2` is a set of items between the top-`n`
cut of the stable descending sort of `M1` and `M1` itself, and pairs that sit
in correct key order in `M2` also sit in that order in the sort of `M1`, then
sorting `M2` and cutting again reproduces the original cut. -/
theorem stable_sort_take_eq {α : Type} [DecidableEq α] (key : α → Int)
    (le : α → α → Bool) (hledef : ∀ a b, le a b = decide (key b ≤ key a))
    (M1 M2 : List α) (n : Nat)
    (h1 : M1.Nodup) (h2 : M2.Nodup)
    (hsub : ∀ x ∈ M2, x ∈ M1)
    (hout : ∀ x ∈ (M1.mergeSort le).take n, x ∈ M2)
    (htie : ∀ x y, List.Sublist [x, y] M2 → key y ≤ key x →
      List.Sublist [x, y] (M1.mergeSort le)) :
    (M2.mergeSort le).take n = (M1.mergeSort le).take n := by
  have htrans : ∀ (a b c : α), le a b → le b c → le a c := by
    intro a b c hab hbc
    rw [hledef] at *
    rw [decide_eq_true_iff] at *
    exact le_trans hbc hab
  have htotal : ∀ (a b : α), (le a b || le b a) = true := by
    intro a b
    rw [hledef, hledef, Bool.or_eq_true, decide_eq_true_iff, decide_eq_true_iff]
    exact Int.le_total _ _
  have hSperm : List.Perm (M1.mergeSort le) M1 := List.mergeSort_perm M1 le
  have hSnd : (M1.mergeSort le).Nodup := hSperm.nodup_iff.2 h1
  have hAperm : List.Perm (M2.mergeSort le) M2 := List.mergeSort_perm M2 le
  have hAnd : (M2.mergeSort le).Nodup := hAperm.nodup_iff.2 h2
  have hBsub : List.Sublist ((M1.mergeSort le).filter fun x => decide (x ∈ M2))
      (M1.mergeSort le) := List.filter_sublist _
  have hBnd : ((M1.mergeSort le).filter fun x => decide (x ∈ M2)).Nodup :=
    List.Nodup.sublist hBsub hSnd
  have hBperm : List.Perm ((M1.mergeSort le).filter fun x => decide (x ∈ M2)) M2 := by
    apply (List.perm_ext_iff_of_nodup hBnd h2).2
    intro x
    constructor
    · intro hx
      exact of_decide_eq_true (List.mem_filter.1 hx).2
    · intro hx
      exact List.mem_filter.2 ⟨hSperm.mem_iff.2 (hsub x hx), decide_eq_true hx⟩
  have hABperm : List.Perm (M2.mergeSort le)
      ((M1.mergeSort le).filter fun x => decide (x ∈ M2)) :=
    hAperm.trans hBperm.symm
  have hranti : ∀ x ∈ M2.mergeSort le, ∀ y ∈ M2.mergeSort le,
      (key y < key x ∨ (key x = key y ∧ M2.indexOf x ≤ M2.indexOf y)) →
      (key x < key y ∨ (key y = key x ∧ M2.indexOf y ≤ M2.indexOf x)) → x = y := by
    intro x hx y hy hxy hyx
    have hxM2 : x ∈ M2 := hAperm.mem_iff.1 hx
    have hyM2 : y ∈ M2 := hAperm.mem_iff.1 hy
    rcases hxy with h | ⟨he, hi⟩
    · rcases hyx with h' | ⟨he', _⟩
      · omega
      · omega
    · rcases hyx with h' | ⟨_, hi'⟩
      · omega
      · exact (List.indexOf_inj hxM2 hyM2).1 (Nat.le_antisymm hi hi')
  have hApw : (M2.mergeSort le).Pairwise
      fun x y => key y < key x ∨ (key x = key y ∧ M2.indexOf x ≤ M2.indexOf y) := by
    rw [List.pairwise_iff_getElem]
    intro i j hi hj hij
    have hfull : (M2.mergeSort le).Pairwise (le · ·) :=
      List.sorted_mergeSort htrans htotal M2
    have hle' : le (M2.mergeSort le)[i] (M2.mergeSort le)[j] = true :=
      List.pairwise_iff_getElem.1 hfull i j hi hj hij
    rw [hledef, decide_eq_true_iff] at hle'
    rcases lt_or_eq_of_le hle' with hlt | heq
    · exact Or.inl hlt
    · refine Or.inr ⟨heq.symm, ?_⟩
      by_contra hgt
      push_neg at hgt
      have hiM2 : (M2.mergeSort le)[i] ∈ M2 := hAperm.mem_iff.1 (List.getElem_mem _)
      have hjM2 : (M2.mergeSort le)[j] ∈ M2 := hAperm.mem_iff.1 (List.getElem_mem _)
      have hjlen : M2.indexOf (M2.mergeSort le)[j] < M2.length :=
        List.indexOf_lt_length.2 hjM2
      have hilen : M2.indexOf (M2.mergeSort le)[i] < M2.length :=
        List.indexOf_lt_length.2 hiM2
      have hpair := pair_sublist_of_indices hjlen hilen hgt
      rw [List.getElem_indexOf hjlen, List.getElem_indexOf hilen] at hpair
      have hletie : le (M2.mergeSort le)[j] (M2.mergeSort le)[i] = true := by
        rw [hledef, decide_eq_true_iff]
        exact le_of_eq heq.symm
      have hsubA := List.pair_sublist_mergeSort htrans htotal hletie hpair
      rcases indices_of_pair_sublist hsubA with ⟨i', j', hi', hj', hij', hji, hij2⟩
      have e1 : i' = j := (List.Nodup.getElem_inj_iff hAnd).1 hji
      have e2 : j' = i := (List.Nodup.getElem_inj_iff hAnd).1 hij2
      omega
  have hBpw : ((M1.mergeSort le).filter fun x => decide (x ∈ M2)).Pairwise
      fun x y => key y < key x ∨ (key x = key y ∧ M2.indexOf x ≤ M2.indexOf y) := by
    rw [List.pairwise_iff_getElem]
    intro i j hi hj hij
    have hSsorted : (M1.mergeSort le).Pairwise (le · ·) :=
      List.sorted_mergeSort htrans htotal M1
    have hBle : ((M1.mergeSort le).filter fun x => decide (x ∈ M2)).Pairwise (le · ·) :=
      List.Pairwise.sublist hBsub hSsorted
    have hle' := List.pairwise_iff_getElem.1 hBle i j hi hj hij
    rw [hledef, decide_eq_true_iff] at hle'
    rcases lt_or_eq_of_le hle' with hlt | heq
    · exact Or.inl hlt
    · refine Or.inr ⟨heq.symm, ?_⟩
      by_contra hgt
      push_neg at hgt
      have hiM2 : ((M1.mergeSort le).filter fun x => decide (x ∈ M2))[i] ∈ M2 :=
        hBperm.mem_iff.1 (List.getElem_mem _)
      have hjM2 : ((M1.mergeSort le).filter fun x => decide (x ∈ M2))[j] ∈ M2 :=
        hBperm.mem_iff.1 (List.getElem_mem _)
      have hjlen := List.indexOf_lt_length.2 hjM2
      have hilen := List.indexOf_lt_length.2 hiM2
      have hpair := pair_sublist_of_indices hjlen hilen hgt
      rw [List.getElem_indexOf hjlen, List.getElem_indexOf hilen] at hpair
      have hsubS := htie _ _ hpair (le_of_eq heq.symm)
      have hsubS2 : List.Sublist
          [((M1.mergeSort le).filter fun x => decide (x ∈ M2))[i],
           ((M1.mergeSort le).filter fun x => decide (x ∈ M2))[j]]
          (M1.mergeSort le) :=
        List.Sublist.trans (pair_sublist_of_indices hi hj hij) hBsub
      exact pair_sublist_asymm hSnd hsubS2 hsubS
  have hAB : M2.mergeSort le = (M1.mergeSort le).filter fun x => decide (x ∈ M2) :=
    uniq_of_perm_pairwise hABperm hApw hBpw hranti
  have hsplit : (M1.mergeSort le).filter (fun x => decide (x ∈ M2))
      = (M1.mergeSort le).take n ++ ((M1.mergeSort le).drop n).filter
          fun x => decide (x ∈ M2) := by
    conv_lhs => rw [← List.take_append_drop n (M1.mergeSort le)]
    rw [List.filter_append]
    congr 1
    rw [List.filter_eq_self]
    intro a ha
    exact decide_eq_true (hout a ha)
  rw [hAB, hsplit]
  by_cases hn : n ≤ (M1.mergeSort le).length
  · have hlen : ((M1.mergeSort le).take n).length = n := by
      rw [List.length_take]
      omega
    rw [List.take_left' hlen]
  · push_neg at hn
    have hdrop : (M1.mergeSort le).drop n = [] :=
      List.drop_eq_nil_of_le (le_of_lt hn)
    rw [hdrop]
    simp [List.take_take]

theorem gnodup_nodup {m : List RawItem} (h : GNodup m) : m.Nodup :=
  List.Pairwise.imp (fun hne heq => hne (congrArg RawItem.guid heq)) h

theorem item_le_trans (dtparse : String → Option Int) (now : Int) :
    ∀ a b c : RawItem, item_le dtparse now a b → item_le dtparse now b c →
      item_le dtparse now a c := by
  intro a b c hab hbc
  unfold item_le at *
  rw [decide_eq_true_iff] at *
  exact le_trans hbc hab

theorem item_le_total (dtparse : String → Option Int) (now : Int) :
    ∀ a b : RawItem, (item_le dtparse now a b || item_le dtparse now b a) = true := by
  intro a b
  unfold item_le
  rw [Bool.or_eq_true, decide_eq_true_iff, decide_eq_true_iff]
  exact Int.le_total _ _

theorem fold_existing_closed :
    ∀ (es K : List RawItem), GNodup es →
      es.foldl insert_existing K
        = K ++ es.filter fun x => !(K.any fun y => y.guid = x.guid) := by
  intro es
  induction es with
  | nil => intro K _; simp
  | cons e rest ih =>
    intro K h
    rw [List.foldl_cons]
    by_cases hg : HasGuid K e.guid
    · rw [insert_existing_skip hg, ih K h.of_cons, List.filter_cons,
        (any_guid_iff K e.guid).2 hg]
      simp
    · have hany : (K.any fun y => y.guid = e.guid) = false := by
        rw [Bool.eq_false_iff]
        intro hc
        exact hg ((any_guid_iff _ _).1 hc)
      rw [insert_existing_app hg, ih (K ++ [e]) h.of_cons]
      have hfeq : (rest.filter fun x => !((K ++ [e]).any fun y => y.guid = x.guid))
          = rest.filter fun x => !(K.any fun y => y.guid = x.guid) := by
        apply List.filter_congr
        intro x hx
        have hne : e.guid ≠ x.guid := List.rel_of_pairwise_cons h hx
        simp [List.any_append, hne]
      rw [hfeq, List.filter_cons, hany]
      simp

/-- The list-level heart of idempotence: re-merging the same fresh items with
the output of a previous merge-sort-truncate run and sorting-truncating again
reproduces that output exactly. -/
theorem keyed_sort_take_stable (dtparse : String → Option Int) (now : Int)
    (ns es : List RawItem) (n : Nat) :
    (sort_items dtparse now (keyed_values ns
        ((sort_items dtparse now (keyed_values ns es)).take n))).take n
      = (sort_items dtparse now (keyed_values ns es)).take n := by
  have hledef : ∀ a b : RawItem, item_le dtparse now a b
      = decide (pubdate_key dtparse now b ≤ pubdate_key dtparse now a) :=
    fun a b => rfl
  have hgn1 : GNodup (keyed_values ns es) := keyed_values_gnodup ns es
  have hnd1 : (keyed_values ns es).Nodup := gnodup_nodup hgn1
  have hSperm : List.Perm ((keyed_values ns es).mergeSort (item_le dtparse now))
      (keyed_values ns es) := List.mergeSort_perm _ _
  have hgnS : GNodup ((keyed_values ns es).mergeSort (item_le dtparse now)) :=
    (List.Perm.pairwise_iff (fun h => Ne.symm h) hSperm).2 hgn1
  have hgnOut : GNodup (((keyed_values ns es).mergeSort (item_le dtparse now)).take n) :=
    List.Pairwise.sublist (List.take_sublist _ _) hgnS
  rcases fold_existing_decomp es (ns.foldl insert_fresh []) with ⟨tailP, hdec, htail⟩
  have hM1 : keyed_values ns es = ns.foldl insert_fresh [] ++ tailP := hdec
  have hM2 : keyed_values ns (((keyed_values ns es).mergeSort (item_le dtparse now)).take n)
      = ns.foldl insert_fresh []
        ++ (((keyed_values ns es).mergeSort (item_le dtparse now)).take n).filter
             fun x => !((ns.foldl insert_fresh []).any fun y => y.guid = x.guid) :=
    fold_existing_closed _ _ hgnOut
  have houtM1 : ∀ x ∈ ((keyed_values ns es).mergeSort (item_le dtparse now)).take n,
      x ∈ keyed_values ns es := by
    intro x hx
    exact hSperm.mem_iff.1 (List.mem_of_mem_take hx)
  have hsub : ∀ x ∈ keyed_values ns
      (((keyed_values ns es).mergeSort (item_le dtparse now)).take n),
      x ∈ keyed_values ns es := by
    intro x hx
    rw [hM2] at hx
    rcases List.mem_append.1 hx with hx' | hx'
    · rw [hM1]
      exact List.mem_append_left _ hx'
    · exact houtM1 x (List.mem_filter.1 hx').1
  have hout : ∀ x ∈ ((keyed_values ns es).mergeSort (item_le dtparse now)).take n,
      x ∈ keyed_values ns
        (((keyed_values ns es).mergeSort (item_le dtparse now)).take n) := by
    intro x hx
    rw [hM2]
    by_cases hK : HasGuid (ns.foldl insert_fresh []) x.guid
    · have hx1 : x ∈ keyed_values ns es := houtM1 x hx
      rw [hM1] at hx1
      rcases List.mem_append.1 hx1 with hx' | hx'
      · exact List.mem_append_left _ hx'
      · exact absurd hK (htail x hx').2
    · refine List.mem_append_right _ (List.mem_filter.2 ⟨hx, ?_⟩)
      have hany : ((ns.foldl insert_fresh []).any fun y => y.guid = x.guid) = false := by
        rw [Bool.eq_false_iff]
        intro hc
        exact hK ((any_guid_iff _ _).1 hc)
      rw [hany]
      rfl
  have htie : ∀ x y, List.Sublist [x, y]
        (keyed_values ns (((keyed_values ns es).mergeSort (item_le dtparse now)).take n)) →
      pubdate_key dtparse now y ≤ pubdate_key dtparse now x →
      List.Sublist [x, y] ((keyed_values ns es).mergeSort (item_le dtparse now)) := by
    intro x y hxy hk
    have hxyle : item_le dtparse now x y = true := decide_eq_true hk
    rw [hM2] at hxy
    rcases pair_sublist_append hxy with h | h | ⟨hxK, hyF⟩
    · have hsubM1 : List.Sublist [x, y] (keyed_values ns es) := by
        rw [hM1]
        exact List.Sublist.trans h (List.sublist_append_left _ _)
      exact List.pair_sublist_mergeSort (item_le_trans dtparse now)
        (item_le_total dtparse now) hxyle hsubM1
    · exact List.Sublist.trans h (List.Sublist.trans (List.filter_sublist _)
        (List.take_sublist _ _))
    · have hyOut := List.mem_filter.1 hyF
      have hyNoK : ¬ HasGuid (ns.foldl insert_fresh []) y.guid := by
        intro hc
        have := hyOut.2
        rw [(any_guid_iff _ _).2 hc] at this
        exact absurd this (by simp)
      have hyM1 : y ∈ keyed_values ns es := houtM1 y hyOut.1
      rw [hM1] at hyM1
      have hyTail : y ∈ tailP := by
        rcases List.mem_append.1 hyM1 with hy' | hy'
        · exact absurd ⟨y, hy', rfl⟩ hyNoK
        · exact hy'
      have hsubM1 : List.Sublist [x, y] (keyed_values ns es) := by
        rw [hM1]
        exact pair_sublist_of_mems hxK hyTail
      exact List.pair_sublist_mergeSort (item_le_trans dtparse now)
        (item_le_total dtparse now) hxyle hsubM1
  exact stable_sort_take_eq (pubdate_key dtparse now) (item_le dtparse now) hledef
    (keyed_values ns es)
    (keyed_values ns (((keyed_values ns es).mergeSort (item_le dtparse now)).take n))
    n hnd1
    (gnodup_nodup (keyed_values_gnodup ns _))
    hsub hout htie

/-- C5: running the merge-sort-truncate pipeline a second time at the same
processing instant, with the same fetched entries and the first run's output
as the persisted input, reproduces the first run's output exactly (lastBuild
metadata is outside the item pipeline). -/
theorem pipeline_idempotent (dtparse : String → Option Int) (fmt : Int → String)
    (now : Int) (entries : List Entry) (existing : List RawItem) (maxItems : Nat) :
    run_pipeline dtparse fmt now entries
        (run_pipeline dtparse fmt now entries existing maxItems) maxItems
      = run_pipeline dtparse fmt now entries existing maxItems :=
  keyed_sort_take_stable dtparse now (new_items dtparse fmt now entries)
    existing maxItems

/-- A Python datetime as relevant to ranking: the timezone-awareness flag and
the instant it denotes.  Ordering comparisons between a naive and an aware
datetime raise `TypeError` in Python, so only the `val` of two datetimes with
equal `aware` can be compared. -/
structure PyDT where
  aware : Bool
  val : Int
deriving DecidableEq

/-- Whether Python may order-compare two datetimes: both naive or both
aware. -/
def comparable_dt (a b : PyDT) : Bool :=
  a.aware == b.aware

/-- The sort key of source line 187 over the refined datetime domain. -/
def pubdate_key_dt (dtparse : String → Option PyDT) (now : PyDT) (x : RawItem) : PyDT :=
  parse_pubdate_string dtparse now (or_empty x.pubDate)

/-- The `sorted` call of source line 187 over the refined datetime domain.
A comparison sort must compare some naive key with some aware key whenever
the candidate list holds keys of both kinds, and any such comparison raises
`TypeError`, which `parse_pubdate_string`'s handler does not catch; a mixed
candidate list therefore makes the call raise, modelled as `Except.error`.
Otherwise the stable descending sort completes. -/
def sorted_step (dtparse : String → Option PyDT) (now : PyDT) (l : List RawItem) :
    Except Unit (List RawItem) :=
  if l.all fun a => l.all fun b =>
      comparable_dt (pubdate_key_dt dtparse now a) (pubdate_key_dt dtparse now b) then
    Except.ok (l.mergeSort fun a b =>
      decide ((pubdate_key_dt dtparse now b).val ≤ (pubdate_key_dt dtparse now a).val))
  else
    Except.error ()

/-- A parse function with one timezone-naive and one timezone-aware result. -/
def cex_dtparse : String → Option PyDT := fun s =>
  if s = "2024-01-01 00:00:00" then some { aware := false, val := 0 }
  else if s = "Tue, 02 Jan 2024 00:00:00 +0000" then some { aware := true, val := 86400 }
  else none

/-- A persisted item whose pubDate parses to a naive datetime. -/
def cex_naive_item : RawItem :=
  { element := Elem.stored ⟨some "n", some "n", some "2024-01-01 00:00:00"⟩
    link := "n"
    pubDate := some "2024-01-01 00:00:00"
    guid := "n" }

/-- A persisted item whose pubDate parses to an aware datetime. -/
def cex_aware_item : RawItem :=
  { element := Elem.stored ⟨some "a", some "a", some "Tue, 02 Jan 2024 00:00:00 +0000"⟩
    link := "a"
    pubDate := some "Tue, 02 Jan 2024 00:00:00 +0000"
    guid := "a" }

/-- C6 counterexample: over a candidate list holding one timezone-naive and
one timezone-aware parseable pubDate, the ranking sort raises instead of
completing — both dates parse, so the per-item fallback never fires, yet the
comparison between the two parsed keys is illegal. -/
theorem date_sort_raises_cex :
    sorted_step cex_dtparse { aware := true, val := 100 }
        [cex_naive_item, cex_aware_item] = Except.error ()
    ∧ cex_dtparse "2024-01-01 00:00:00" = some { aware := false, val := 0 }
    ∧ cex_dtparse "Tue, 02 Jan 2024 00:00:00 +0000"
        = some { aware := true, val := 86400 } := by
  refine ⟨?_, by decide, by decide⟩
  have hc : ([cex_naive_item, cex_aware_item].all fun a =>
      [cex_naive_item, cex_aware_item].all fun b =>
        comparable_dt (pubdate_key_dt cex_dtparse { aware := true, val := 100 } a)
          (pubdate_key_dt cex_dtparse { aware := true, val := 100 } b)) = false := by
    decide
  unfold sorted_step
  rw [hc]
  rfl

/-- C6 amended: the per-string ranking step is total — it returns the parsed
instant, or the processing instant when the parser fails — and the sort over
the whole candidate list completes exactly when the parsed keys are mutually
comparable (all naive or all aware); a mixed list makes the sort raise. -/
theorem date_handling_amended (dtparse : String → Option PyDT) (now : PyDT)
    (l : List RawItem)
    (h : (l.all fun a => l.all fun b =>
      comparable_dt (pubdate_key_dt dtparse now a) (pubdate_key_dt dtparse now b)) = true) :
    (∀ s, (dtparse s = none → parse_pubdate_string dtparse now s = now)
        ∧ ∀ d, dtparse s = some d → parse_pubdate_string dtparse now s = d)
    ∧ ∃ r, sorted_step dtparse now l = Except.ok r ∧ List.Perm r l := by
  constructor
  · intro s
    constructor
    · intro hs
      unfold parse_pubdate_string
      rw [hs]
    · intro d hs
      unfold parse_pubdate_string
      rw [hs]
  · refine ⟨l.mergeSort fun a b =>
        decide ((pubdate_key_dt dtparse now b).val ≤ (pubdate_key_dt dtparse now a).val),
      ?_, List.mergeSort_perm _ _⟩
    unfold sorted_step
    rw [if_pos h]

theorem date_handling_amended_witness :
    (∀ s, (cex_dtparse s = none →
        parse_pubdate_string cex_dtparse { aware := true, val := 100 } s
          = { aware := true, val := 100 })
      ∧ ∀ d, cex_dtparse s = some d →
        parse_pubdate_string cex_dtparse { aware := true, val := 100 } s = d)
    ∧ ∃ r, sorted_step cex_dtparse { aware := true, val := 100 } [cex_naive_item]
        = Except.ok r ∧ List.Perm r [cex_naive_item] :=
  date_handling_amended cex_dtparse { aware := true, val := 100 }
    [cex_naive_item] (by decide)

/-- An entry with no published field but both a pubDate and an updated
field. -/
def c7_entry : Entry :=
  { link := some "/columns/a", id := none, title := none, content := [],
    summary := none, published := none, pubDate := some "P", updated := some "U" }

/-- A parse function distinguishing the two date strings of `c7_entry`. -/
def c7_dtparse : String → Option Int := fun s =>
  if s = "P" then some 10 else if s = "U" then some 20 else none

/-- A formatter distinguishing the two parsed instants of `c7_entry`. -/
def c7_fmt : Int → String := fun d =>
  if d = 10 then "date-P" else "date-U"

/-- C7 counterexample: with published absent, the serialized pubDate comes
from the raw pubDate field, not from updated as the claimed order
(published, then updated, then any other field) predicts. -/
theorem date_selection_cex :
    (entry_to_item_element c7_dtparse c7_fmt 0 c7_entry).2 = "date-P"
    ∧ c7_entry.published = none
    ∧ c7_entry.updated = some "U"
    ∧ c7_dtparse "U" = some 20
    ∧ c7_fmt 20 = "date-U"
    ∧ "date-P" ≠ "date-U" := by
  refine ⟨rfl, rfl, rfl, by decide, by decide, by decide⟩

/-- The try/except around parse-and-format (source lines 80-86): format the
parsed date, or the processing instant on failure. -/
def parse_or_now (dtparse : String → Option Int) (fmt : Int → String)
    (now : Int) (p : String) : String :=
  match dtparse p with
  | some d => fmt d
  | none => fmt now

/-- C7 amended: the serialized pubDate is chosen by trying the published
field first, then the raw pubDate field, then updated — a present-but-empty
field is skipped — and only when none is truthy does the processing-time
fallback fire. -/
theorem date_selection_order (dtparse : String → Option Int) (fmt : Int → String)
    (now : Int) (e : Entry) :
    ((truthy e.published = none → truthy e.pubDate = none → truthy e.updated = none →
        (entry_to_item_element dtparse fmt now e).2 = fmt now))
    ∧ (∀ p, truthy e.published = some p →
        (entry_to_item_element dtparse fmt now e).2 = parse_or_now dtparse fmt now p)
    ∧ (∀ p, truthy e.published = none → truthy e.pubDate = some p →
        (entry_to_item_element dtparse fmt now e).2 = parse_or_now dtparse fmt now p)
    ∧ (∀ p, truthy e.published = none → truthy e.pubDate = none →
        truthy e.updated = some p →
        (entry_to_item_element dtparse fmt now e).2 = parse_or_now dtparse fmt now p) := by
  refine ⟨?_, ?_, ?_, ?_⟩
  · intro h1 h2 h3
    simp [entry_to_item_element, h1, h2, h3]
  · intro p h1
    simp [entry_to_item_element, parse_or_now, h1]
  · intro p h1 h2
    simp [entry_to_item_element, parse_or_now, h1, h2]
  · intro p h1 h2 h3
    simp [entry_to_item_element, parse_or_now, h1, h2, h3]

/-- An entry with no link but a native id. -/
def c8_entry : Entry :=
  { link := none, id := some "native-id", title := none, content := [],
    summary := none, published := none, pubDate := none, updated := none }

/-- C8 counterexample: an entry whose link is absent is not retained under
its native id — it is dropped by the link filter before identifier selection,
so the pipeline output is empty rather than holding an item keyed by the
id. -/
theorem identifier_fallback_cex :
    new_items (fun _ => none) (fun _ => "") 0 [c8_entry] = []
    ∧ c8_entry.id = some "native-id"
    ∧ run_pipeline (fun _ => none) (fun _ => "") 0 [c8_entry] [] 500 = [] := by
  refine ⟨rfl, rfl, ?_⟩
  have h0 : keyed_values (new_items (fun _ => none) (fun _ => "") 0 [c8_entry]) [] = [] := rfl
  unfold run_pipeline
  rw [h0]
  simp [sort_items, List.mergeSort_nil]

/-- C8 amended: the deduplication identifier of every retained fresh item is
the entry's link, which is present and passes the filter; an entry with no
link contributes nothing to the batch (the native-id fallback exists only in
the serialized guid element, never in the deduplication key). -/
theorem identifier_selection (dtparse : String → Option Int) (fmt : Int → String)
    (now : Int) :
    (∀ entries, ∀ x ∈ new_items dtparse fmt now entries,
        ∃ e ∈ entries, e.link = some x.guid ∧ str_contains x.guid "/columns/" = true)
    ∧ ∀ e : Entry, e.link = none → new_items dtparse fmt now [e] = [] := by
  constructor
  · intro entries x hx
    unfold new_items at hx
    rcases List.mem_map.1 hx with ⟨e, he, rfl⟩
    have hmem := List.mem_filter.1 he
    refine ⟨e, hmem.1, ?_, by simpa using hmem.2⟩
    rcases hl : e.link with _ | s
    · exfalso
      have := hmem.2
      rw [hl] at this
      simp only [Option.getD_none] at this
      exact absurd this (by decide)
    · simp [hl]
  · intro e hl
    have hstr : str_contains "" "/columns/" = false := by decide
    simp [new_items, filter_entries, hl, hstr]

/-- An item node with an empty (but present) guid element and a link. -/
def c9_item : XmlItem :=
  { linkText := some "L", guidText := some "", pubDateText := none }

/-- C9 counterexample: for an item node whose guid element is present but
empty, the loaded identifier is the link text, not the guid text — the
fallback also fires on empty text, not only when the guid element is
absent. -/
theorem loader_guid_cex :
    (load_existing_items (XmlFile.channel [c9_item])).map (fun r => r.guid) = ["L"]
    ∧ c9_item.guidText = some ""
    ∧ ("L" : String) ≠ "" := by
  refine ⟨rfl, rfl, by decide⟩

/-- C9 amended: a missing, unparseable or channel-less file loads as the
empty collection without failing; every item node is loaded; the identifier
is the guid text when non-empty, else the link text when non-empty, else the
empty string. -/
theorem loader_robustness :
    load_existing_items XmlFile.missing = []
    ∧ load_existing_items XmlFile.unreadable = []
    ∧ load_existing_items XmlFile.noChannel = []
    ∧ ∀ its : List XmlItem,
        (load_existing_items (XmlFile.channel its)).length = its.length
        ∧ ∀ it ∈ its,
            load_item it ∈ load_existing_items (XmlFile.channel its)
            ∧ (∀ g, truthy it.guidText = some g → (load_item it).guid = g)
            ∧ (truthy it.guidText = none → ∀ l, truthy it.linkText = some l →
                (load_item it).guid = l)
            ∧ (truthy it.guidText = none → truthy it.linkText = none →
                (load_item it).guid = "") := by
  refine ⟨rfl, rfl, rfl, ?_⟩
  intro its
  constructor
  · simp [load_existing_items]
  · intro it hit
    refine ⟨List.mem_map.2 ⟨it, hit, rfl⟩, ?_, ?_, ?_⟩
    · intro g hg
      simp [load_item, hg]
    · intro hg l hl
      simp [load_item, or_empty, hg, hl]
    · intro hg hl
      simp [load_item, or_empty, hg, hl]

theorem fold_existing_all_dup :
    ∀ (es m : List RawItem), (∀ x ∈ es, HasGuid m x.guid) →
      es.foldl insert_existing m = m := by
  intro es
  induction es with
  | nil => intro m _; rfl
  | cons e rest ih =>
    intro m h
    rw [List.foldl_cons, insert_existing_skip (h e (List.mem_cons_self _ _))]
    exact ih m fun x hx => h x (List.mem_cons_of_mem _ hx)

/-- C10: an item node with neither a guid nor a link element is loaded, not
skipped, with the empty-string identifier; when every node of the persisted
file lacks both and there are no fresh items, only the first node in document
order survives the merge — the rest are silently dropped. -/
theorem identityless_items (its : List XmlItem)
    (hall : ∀ it ∈ its, it.guidText = none ∧ it.linkText = none) :
    (∀ it ∈ its, (load_item it).guid = "")
    ∧ (load_existing_items (XmlFile.channel its)).length = its.length
    ∧ ∀ it0 rest, its = it0 :: rest →
        keyed_values [] (load_existing_items (XmlFile.channel its)) = [load_item it0] := by
  have hguid : ∀ it ∈ its, (load_item it).guid = "" := by
    intro it hit
    rcases hall it hit with ⟨hg, hl⟩
    simp [load_item, or_empty, hg, hl, truthy]
  refine ⟨hguid, by simp [load_existing_items], ?_⟩
  intro it0 rest heq
  subst heq
  show (load_item it0 :: rest.map load_item).foldl insert_existing
      ([].foldl insert_fresh []) = [load_item it0]
  rw [List.foldl_nil, List.foldl_cons,
    insert_existing_app (by rintro ⟨x, hx, _⟩; cases hx)]
  rw [List.nil_append]
  apply fold_existing_all_dup
  intro x hx
  rcases List.mem_map.1 hx with ⟨it, hit, rfl⟩
  refine ⟨load_item it0, List.mem_singleton.2 rfl, ?_⟩
  rw [hguid it0 (List.mem_cons_self _ _),
    hguid it (List.mem_cons_of_mem _ hit)]

theorem identityless_items_witness :
    (∀ it ∈ [({ linkText := none, guidText := none, pubDateText := none } : XmlItem),
        { linkText := none, guidText := none, pubDateText := some "x" }],
      (load_item it).guid = "")
    ∧ (load_existing_items (XmlFile.channel
        [{ linkText := none, guidText := none, pubDateText := none },
         { linkText := none, guidText := none, pubDateText := some "x" }])).length
      = ([({ linkText := none, guidText := none, pubDateText := none } : XmlItem),
          { linkText := none, guidText := none, pubDateText := some "x" }]).length
    ∧ ∀ it0 rest,
        ([({ linkText := none, guidText := none, pubDateText := none } : XmlItem),
          { linkText := none, guidText := none, pubDateText := some "x" }])
          = it0 :: rest →
        keyed_values [] (load_existing_items (XmlFile.channel
          [{ linkText := none, guidText := none, pubDateText := none },
           { linkText := none, guidText := none, pubDateText := some "x" }]))
          = [load_item it0] :=
  identityless_items
    [{ linkText := none, guidText := none, pubDateText := none },
     { linkText := none, guidText := none, pubDateText := some "x" }]
    (by intro it hit; fin_cases hit <;> exact ⟨rfl, rfl⟩)

end FetchColumns
